import Mathlib

/-!
Verification of the background job-processing engine described in `spec.md`
of the `systems` repository, together with two frontend utilities
(`useEventLog` in `frontend/src/lib/hooks.ts` and the polling loop of
`SyncAsyncDemo.runAsync` in `frontend/src/app/tasks/page.tsx`).

The engine itself (bounded queue, worker pool, retry/dead-letter manager,
stats registry) lives in the FastAPI backend, which is not among the
available sources; only its frontend callers are.  Following the spec
(sections 3 to 6), the engine is modelled here as a state machine with
atomic operations: the spec requires every queue mutation to be a single
serialized step, so a concurrent execution is an arbitrary interleaving,
i.e. an arbitrary finite sequence of operations applied to the initial
state.
-/

set_option autoImplicit false

namespace Systems

/-- Modelled from the spec: the state field of a Job
(section 3, one of Queued, Processing, Completed, Failed, DeadLettered).
In the atomic-step model a job is `processing` only inside a worker step,
so states stored in the structures below are `queued` and `deadLettered`. -/
inductive JobState where
  | queued
  | processing
  | completed
  | failed
  | deadLettered
deriving DecidableEq, Repr

/-- Modelled from the spec: a Job (section 3).  The payload is reduced to
the demo-relevant "always fails" flag; ids are natural numbers standing
for the globally unique identifiers (UUIDs) the backend assigns at
submission. -/
structure Job where
  id : Nat
  fails : Bool
  state : JobState
  attempts : Nat
deriving DecidableEq, Repr

/-- Modelled from the spec: a Worker of the pool (section 3):
ephemeral identity with a `jobsProcessed` counter. -/
structure Worker where
  id : Nat
  jobsProcessed : Nat
deriving DecidableEq, Repr

/-- Modelled from the spec: the whole engine state: bounded FIFO queue,
worker pool, dead-letter store, stats counters (section 3), plus the
configuration constants `maxQueueSize` and `maxAttempts` and the id
source `nextId`.  `completedOrder` records the order in which jobs
complete, the observation the Stats/Status registry exposes to pollers. -/
structure Engine where
  queue : List Job
  dlq : List Job
  workers : List Worker
  running : Bool
  jobsCompleted : Nat
  jobsFailed : Nat
  queueRejections : Nat
  completedOrder : List Nat
  maxQueueSize : Nat
  maxAttempts : Nat
  nextId : Nat
deriving DecidableEq, Repr

/-- The reason string used by the bounded queue on rejection. -/
def queueFullReason : String := "queue full"

/-- The reason string reported when a dead-letter retry names no job. -/
def notFoundReason : String := "not found"

/-- Result of a submission through the bounded queue (section 6):
either accepted with the job id and 1-based queue position, or rejected
with a reason. -/
inductive SubmitResult where
  | accepted (jobId : Nat) (position : Nat)
  | rejected (reason : String)
deriving DecidableEq, Repr

/-- Modelled from the spec: the initial, empty engine state for a given
configuration. -/
def init (qmax amax : Nat) : Engine :=
  { queue := []
    dlq := []
    workers := []
    running := false
    jobsCompleted := 0
    jobsFailed := 0
    queueRejections := 0
    completedOrder := []
    maxQueueSize := qmax
    maxAttempts := amax
    nextId := 0 }

/-- Modelled from the spec: the core of the bounded queue (section 4.1).
If the current depth is at least `maxQueueSize` the job is rejected with
reason "queue full" and `queueRejections` is incremented; otherwise the
job is appended with state Queued and its 1-based position is returned.
Both fresh submissions and dead-letter retries go through this single
admission point. -/
def enqueueJob (j : Job) (s : Engine) : SubmitResult × Engine :=
  if s.maxQueueSize ≤ s.queue.length then
    (SubmitResult.rejected queueFullReason,
     { s with queueRejections := s.queueRejections + 1 })
  else
    (SubmitResult.accepted j.id (s.queue.length + 1),
     { s with queue := s.queue ++ [{ j with state := JobState.queued }] })

/-- Modelled from the spec: submission of a fresh job (sections 4.1, 6):
a job with a fresh id and `attempts = 0` is pushed through the bounded
queue.  The id source advances whether or not the queue accepts the job,
mirroring the backend's generation of a UUID before the admission check. -/
def submit (f : Bool) (s : Engine) : SubmitResult × Engine :=
  enqueueJob { id := s.nextId, fails := f, state := JobState.queued, attempts := 0 }
    { s with nextId := s.nextId + 1 }

/-- Modelled from the spec: one worker execution cycle (sections 4.2, 4.3),
taken as one atomic step of the interleaving semantics.  A running worker
dequeues the head job (strict FIFO), increments its attempts (the job is
`processing` for the duration of the step), then: on success marks it
completed and bumps `jobsCompleted`; on failure with attempts still below
`maxAttempts` re-submits it through the bounded queue (re-entering at the
back); otherwise moves it to the dead-letter store and bumps `jobsFailed`. -/
def workerStep (s : Engine) : Engine :=
  if s.running then
    match s.queue with
    | [] => s
    | j :: rest =>
      if j.fails then
        if j.attempts + 1 < s.maxAttempts then
          (enqueueJob { j with attempts := j.attempts + 1 } { s with queue := rest }).2
        else
          { s with queue := rest
                   dlq := s.dlq ++
                     [{ j with attempts := j.attempts + 1, state := JobState.deadLettered }]
                   jobsFailed := s.jobsFailed + 1 }
      else
        { s with queue := rest
                 jobsCompleted := s.jobsCompleted + 1
                 completedOrder := s.completedOrder ++ [j.id] }
  else s

/-- Modelled from the spec: `workers.start(n)` (sections 4.2, 6).
Starting an already-running pool is a no-op that reports the current
worker count; otherwise `n` workers are created and `n` is returned. -/
def startWorkers (n : Nat) (s : Engine) : Nat × Engine :=
  if s.running then
    (s.workers.length, s)
  else
    (n, { s with running := true
                 workers := (List.range n).map (fun i => { id := i, jobsProcessed := 0 }) })

/-- Modelled from the spec: `workers.stop()` (sections 4.2, 6).
Stopping a stopped pool is a no-op; otherwise the pool is emptied
(workers have no identity once the pool is stopped). -/
def stopWorkers (s : Engine) : Engine :=
  if s.running then { s with running := false, workers := [] } else s

/-- Modelled from the spec: the completion of a dead-letter retry after
the bounded-queue admission decision: only an accepted resubmission
removes the job from the dead-letter store. -/
def retryFinish (i : Nat) (r : SubmitResult × Engine) : SubmitResult × Engine :=
  match r with
  | (SubmitResult.accepted a p, s1) =>
    (SubmitResult.accepted a p, { s1 with dlq := s1.dlq.filter (fun k => !(k.id == i)) })
  | (SubmitResult.rejected m, s1) => (SubmitResult.rejected m, s1)

/-- Modelled from the spec: `dlq.retry(id)` (section 4.3).  If no
dead-lettered job has the given id, the call reports "not found" and the
state is unchanged.  Otherwise the job is resubmitted through the bounded
queue with `attempts = 0` and state Queued, subject to the same capacity
rule; only on acceptance does it leave the dead-letter store. -/
def dlqRetry (i : Nat) (s : Engine) : SubmitResult × Engine :=
  match s.dlq.find? (fun j => j.id == i) with
  | none => (SubmitResult.rejected notFoundReason, s)
  | some j => retryFinish i (enqueueJob { j with attempts := 0 } s)

/-- Modelled from the spec: `dlq.clear()` (section 4.3): empties the
dead-letter store unconditionally. -/
def dlqClear (s : Engine) : Engine :=
  { s with dlq := [] }

/-- Modelled from the spec: `reset()` (section 4.4): zeroes all counters,
empties the queue, returns the worker pool to its empty stopped state and
clears the dead-letter store.  The configuration constants are kept, and
the id source is not rewound (the backend draws UUIDs, which never
repeat across resets). -/
def resetE (s : Engine) : Engine :=
  { queue := []
    dlq := []
    workers := []
    running := false
    jobsCompleted := 0
    jobsFailed := 0
    queueRejections := 0
    completedOrder := []
    maxQueueSize := s.maxQueueSize
    maxAttempts := s.maxAttempts
    nextId := s.nextId }

/-- Modelled from the spec: the burst demo endpoint behind
`BackpressureDemo.submitBurst`: submit `n` jobs in a row and count how
many were queued and how many rejected. -/
def submitBurst : Nat → Engine → Nat × Nat × Engine
  | 0, s => (0, 0, s)
  | n + 1, s =>
    match submit false s with
    | (SubmitResult.accepted _ _, s1) =>
      let r := submitBurst n s1
      (r.1 + 1, r.2.1, r.2.2)
    | (SubmitResult.rejected _, s1) =>
      let r := submitBurst n s1
      (r.1, r.2.1 + 1, r.2.2)

/-- One externally visible operation of the engine, the alphabet of the
interleaving semantics. -/
inductive Op where
  | submit (fails : Bool)
  | workerStep
  | start (n : Nat)
  | stop
  | dlqRetry (i : Nat)
  | dlqClear
  | reset
deriving DecidableEq, Repr

/-- Apply one operation to the engine state (return values discarded). -/
def applyOp : Op → Engine → Engine
  | Op.submit f, s => (submit f s).2
  | Op.workerStep, s => workerStep s
  | Op.start n, s => (startWorkers n s).2
  | Op.stop, s => stopWorkers s
  | Op.dlqRetry i, s => (dlqRetry i s).2
  | Op.dlqClear, s => dlqClear s
  | Op.reset, s => resetE s

/-- Run a sequence of operations (an interleaving of concurrent callers). -/
def run (ops : List Op) (s : Engine) : Engine :=
  ops.foldl (fun t op => applyOp op t) s

/-- Whether an operation is a dead-letter retry. -/
def isRetry : Op → Bool
  | Op.dlqRetry _ => true
  | _ => false

/-- A sequence of operations containing no explicit operator retry. -/
def NoRetry (ops : List Op) : Prop := ∀ op ∈ ops, isRetry op = false

/-- The ids of the jobs currently in the live queue. -/
def queueIds (s : Engine) : List Nat := s.queue.map Job.id

/-- The ids of the jobs currently in the dead-letter store. -/
def dlqIds (s : Engine) : List Nat := s.dlq.map Job.id

/-!
Frontend definitions, translated from the sources under
`frontend/src/lib/hooks.ts` and `frontend/src/app/tasks/page.tsx`.
-/

/-- A log entry as used by the demo pages: the shape of `LogEntry`
visible in `frontend/src/app/tasks/page.tsx` (timestamp, message,
optional type). -/
structure LogEntry where
  timestamp : String
  message : String
  type : Option String
deriving DecidableEq, Repr

/-- JavaScript `Array.prototype.slice` applied at a non-positive start
index `-n` (as in `prev.slice(-(maxLogs - 1))` of `useEventLog`): for
`n > 0` it keeps the last `min n l.length` elements, while `slice(-0)`
is `slice(0)` and keeps the whole array. -/
def jsSliceLast (l : List LogEntry) (n : Nat) : List LogEntry :=
  if n = 0 then l else l.drop (l.length - n)

/-- The state update performed by `addLog` in `useEventLog`
(`frontend/src/lib/hooks.ts` line 16):
`setLogs (prev => [...prev.slice(-(maxLogs - 1)), entry])`. -/
def addLog (maxLogs : Nat) (logs : List LogEntry) (e : LogEntry) : List LogEntry :=
  jsSliceLast logs (maxLogs - 1) ++ [e]

/-- The state update performed by `clearLogs` in `useEventLog`. -/
def clearLogs : List LogEntry := []

/-- The logs list produced by a sequence of `addLog` calls starting from
the initial empty state of `useEventLog`. -/
def runLog (maxLogs : Nat) (es : List LogEntry) : List LogEntry :=
  es.foldl (addLog maxLogs) []

/-- The status strings the async-submit polling loop inspects
(`frontend/src/app/tasks/page.tsx` lines 181 and 184). -/
def completedStatus : String := "completed"

/-- The polling loop of `SyncAsyncDemo.runAsync`
(`frontend/src/app/tasks/page.tsx` lines 175 to 187), run with `fuel`
remaining iterations from the `k`-th poll of the status endpoint
(modelled as the sequence `status` of its responses): the loop exits
exactly when a poll returns "completed"; every other response (such as
"processing" or a failure status) leaves `completed` false and the loop
polls again.  Returns the index of the successful poll, or `none` if the
fuel runs out first. -/
def pollLoop (status : Nat → String) : Nat → Nat → Option Nat
  | 0, _ => none
  | fuel + 1, k =>
    if status k = completedStatus then some k else pollLoop status fuel (k + 1)

/-- The polling loop terminates when run against the response sequence
`status`: some finite amount of fuel suffices for it to exit. -/
def PollTerminates (status : Nat → String) : Prop :=
  ∃ fuel, (pollLoop status fuel 0).isSome

/-- The status string reported while a job is still being worked on. -/
def processingStatus : String := "processing"

/-- The status string of a job whose execution failed. -/
def failedStatus : String := "failed"

/-- A status sequence that settles at a non-completed terminal value. -/
def statusAlwaysFailed : Nat → String := fun _ => failedStatus

/-- A status sequence that reports "processing" twice and then settles
at "completed". -/
def statusSettlesAtTwo : Nat → String := fun n =>
  if n < 2 then processingStatus else completedStatus

/-- The tag marking an error log entry. -/
def errTag : String := "error"

/-- Sample log entries for concrete evaluations. -/
def entryA : LogEntry := { timestamp := "t1", message := "first", type := none }

/-- A second sample log entry. -/
def entryB : LogEntry := { timestamp := "t2", message := "second", type := some errTag }

/-- A concrete engine whose queue is at capacity: capacity 2, filled by
two accepted submissions. -/
def fullEngine : Engine := run [Op.submit false, Op.submit false] (init 2 3)

/-!  Basic characterizations of the bounded-queue admission point. -/

theorem enqueueJob_of_full {s : Engine} (j : Job) (h : s.maxQueueSize ≤ s.queue.length) :
    enqueueJob j s = (SubmitResult.rejected queueFullReason,
      { s with queueRejections := s.queueRejections + 1 }) := by
  simp [enqueueJob, h]

theorem enqueueJob_of_room {s : Engine} (j : Job) (h : s.queue.length < s.maxQueueSize) :
    enqueueJob j s = (SubmitResult.accepted j.id (s.queue.length + 1),
      { s with queue := s.queue ++ [{ j with state := JobState.queued }] }) := by
  simp [enqueueJob, Nat.not_le.mpr h]

/-- C3: every call to `submit` behaves as the spec's admission contract:
at capacity it returns rejection with reason "queue full", increments
`queueRejections` by one and leaves the queue contents unchanged; below
capacity it appends the job with state Queued and returns its 1-based
position; and the result is exactly one of the two shapes, never both. -/
theorem submit_admission_contract (s : Engine) (f : Bool) :
    (s.maxQueueSize ≤ s.queue.length →
      submit f s = (SubmitResult.rejected queueFullReason,
        { s with queueRejections := s.queueRejections + 1, nextId := s.nextId + 1 })) ∧
    (s.queue.length < s.maxQueueSize →
      submit f s = (SubmitResult.accepted s.nextId (s.queue.length + 1),
        { s with
            queue := s.queue ++
              [{ id := s.nextId, fails := f, state := JobState.queued, attempts := 0 }]
            nextId := s.nextId + 1 })) ∧
    ((∃ r, (submit f s).1 = SubmitResult.rejected r) ∨
      (∃ i p, (submit f s).1 = SubmitResult.accepted i p)) ∧
    ¬ ((∃ r, (submit f s).1 = SubmitResult.rejected r) ∧
      (∃ i p, (submit f s).1 = SubmitResult.accepted i p)) := by
  refine ⟨fun h => ?_, fun h => ?_, ?_, ?_⟩
  · show enqueueJob _ _ = _
    rw [enqueueJob_of_full _ (by simpa using h)]
  · show enqueueJob _ _ = _
    rw [enqueueJob_of_room _ (by simpa using h)]
  · cases hr : (submit f s).1 with
    | accepted i p => exact Or.inr ⟨i, p, rfl⟩
    | rejected r => exact Or.inl ⟨r, rfl⟩
  · rintro ⟨⟨r, hr⟩, ⟨i, p, hi⟩⟩
    rw [hr] at hi
    exact SubmitResult.noConfusion hi

/-- Witness for C3: the contract evaluated at the full capacity-2 engine
and at the empty initial engine. -/
theorem submit_admission_contract_witness :
    (submit false fullEngine).1 = SubmitResult.rejected queueFullReason ∧
    (submit true (init 10 3)).1 = SubmitResult.accepted 0 1 := by
  constructor
  · have h := (submit_admission_contract fullEngine false).1 (by decide)
    rw [h]
  · have h := (submit_admission_contract (init 10 3) true).2.1 (by decide)
    rw [h]
    rfl

/-- C4: with `maxQueueSize = 10` and no workers running, a burst of 15
submissions yields exactly 10 accepted and 5 rejected with reason
"queue full", and afterwards `queueRejections = 5`. -/
theorem burst_scenario :
    (submitBurst 15 (init 10 3)).1 = 10 ∧
    (submitBurst 15 (init 10 3)).2.1 = 5 ∧
    (submitBurst 15 (init 10 3)).2.2.queueRejections = 5 ∧
    (submitBurst 15 (init 10 3)).2.2.queue.length = 10 := by
  decide

/-- C6: `reset` returns the subsystem to its initial condition (all
counters zero, queue empty, worker pool empty and stopped, dead-letter
store empty: the initial state up to the configuration constants and the
never-reused id source) and is idempotent. -/
theorem reset_empties_and_idempotent (s : Engine) :
    (resetE s).queue = [] ∧ (resetE s).dlq = [] ∧
    (resetE s).workers = [] ∧ (resetE s).running = false ∧
    (resetE s).jobsCompleted = 0 ∧ (resetE s).jobsFailed = 0 ∧
    (resetE s).queueRejections = 0 ∧ (resetE s).completedOrder = [] ∧
    resetE s = { init s.maxQueueSize s.maxAttempts with nextId := s.nextId } ∧
    resetE (resetE s) = resetE s := by
  refine ⟨rfl, rfl, rfl, rfl, rfl, rfl, rfl, rfl, rfl, rfl⟩

/-- C8: starting an already-running pool is a no-op, stopping a stopped
pool is a no-op (state unchanged in both cases), and a successful start
returns the worker count. -/
theorem workers_start_stop_idempotent (s : Engine) (n : Nat) :
    (s.running = true → startWorkers n s = (s.workers.length, s)) ∧
    (s.running = false → stopWorkers s = s) ∧
    (s.running = false →
      (startWorkers n s).1 = n ∧
      (startWorkers n s).2.running = true ∧
      (startWorkers n s).2.workers.length = n ∧
      (startWorkers n s).2.queue = s.queue ∧
      (startWorkers n s).2.dlq = s.dlq) := by
  refine ⟨fun h => ?_, fun h => ?_, fun h => ?_⟩
  · simp [startWorkers, h]
  · simp [stopWorkers, h]
  · simp [startWorkers, h]

/-- Witness for C8: start is a no-op on a running engine and stop is a
no-op on the stopped initial engine; a successful start of 2 workers
reports 2. -/
theorem workers_start_stop_idempotent_witness :
    startWorkers 3 (startWorkers 2 (init 10 3)).2 =
      ((startWorkers 2 (init 10 3)).2.workers.length, (startWorkers 2 (init 10 3)).2) ∧
    stopWorkers (init 10 3) = init 10 3 ∧
    (startWorkers 2 (init 10 3)).1 = 2 := by
  refine ⟨?_, ?_, ?_⟩
  · exact (workers_start_stop_idempotent (startWorkers 2 (init 10 3)).2 3).1 (by decide)
  · exact (workers_start_stop_idempotent (init 10 3) 0).2.1 (by decide)
  · exact ((workers_start_stop_idempotent (init 10 3) 2).2.2 (by decide)).1

theorem jsSliceLast_length (l : List LogEntry) {n : Nat} (hn : n ≠ 0) :
    (jsSliceLast l n).length = min l.length n := by
  simp only [jsSliceLast, if_neg hn, List.length_drop]
  omega

theorem addLog_length {k : Nat} (hk : 2 ≤ k) (l : List LogEntry) (e : LogEntry) :
    (addLog k l e).length = min (l.length + 1) k := by
  simp only [addLog, List.length_append, List.length_cons, List.length_nil,
    jsSliceLast_length l (by omega : k - 1 ≠ 0)]
  omega

/-- C9 counterexample: the claim quantifies over every `maxLogs ≥ 1`,
but at `maxLogs = 1` the slice start `-(maxLogs - 1)` evaluates to `-0`,
i.e. `0`, so `addLog` keeps the whole previous array: after two calls
the list holds 2 entries, exceeding the claimed bound of 1. -/
theorem useEventLog_bound_fails_at_one :
    (1 : Nat) ≥ 1 ∧ (runLog 1 [entryA, entryB]).length = 2 ∧
    ¬ (runLog 1 [entryA, entryB]).length ≤ 1 := by
  decide

/-- C9 (amended): for every `maxLogs ≥ 2` and every sequence of `addLog`
calls, the logs list never holds more than `maxLogs` entries; each
`addLog` appends the new entry at the end after the most recent
`maxLogs - 1` prior entries in their original order, and `clearLogs`
yields the empty list. -/
theorem useEventLog_bounded (k : Nat) (hk : 2 ≤ k) :
    (∀ es, (runLog k es).length ≤ k) ∧
    (∀ logs e, addLog k logs e = logs.drop (logs.length - (k - 1)) ++ [e] ∧
      (addLog k logs e).length = min (logs.length + 1) k) ∧
    clearLogs = [] := by
  refine ⟨fun es => ?_, fun logs e => ⟨?_, addLog_length hk logs e⟩, rfl⟩
  · have hfold : ∀ (l : List LogEntry) (acc : List LogEntry), acc.length ≤ k →
        (l.foldl (addLog k) acc).length ≤ k := by
      intro l
      induction l with
      | nil => intro acc h; simpa using h
      | cons e t ih =>
        intro acc h
        refine ih (addLog k acc e) ?_
        rw [addLog_length hk]
        omega
    exact hfold es [] (by simp)
  · simp only [addLog, jsSliceLast, if_neg (by omega : k - 1 ≠ 0)]

/-- Witness for C9 (amended): the bound and clearing evaluated at
`maxLogs = 3` on a concrete four-entry sequence. -/
theorem useEventLog_bounded_witness :
    (runLog 3 [entryA, entryB, entryA, entryB]).length ≤ 3 ∧ clearLogs = [] :=
  ⟨(useEventLog_bounded 3 (by decide)).1 [entryA, entryB, entryA, entryB],
   (useEventLog_bounded 3 (by decide)).2.2⟩

theorem pollLoop_isSome_imp (status : Nat → String) :
    ∀ fuel k, (pollLoop status fuel k).isSome = true → ∃ n, status n = completedStatus := by
  intro fuel
  induction fuel with
  | zero => intro k h; simp [pollLoop] at h
  | succ m ih =>
    intro k h
    by_cases hc : status k = completedStatus
    · exact ⟨k, hc⟩
    · rw [pollLoop, if_neg hc] at h
      exact ih (k + 1) h

theorem pollLoop_reaches (status : Nat → String) :
    ∀ m k, status (k + m) = completedStatus → (pollLoop status (m + 1) k).isSome = true := by
  intro m
  induction m with
  | zero =>
    intro k h
    simp only [Nat.add_zero] at h
    simp [pollLoop, h]
  | succ m ih =>
    intro k h
    by_cases hc : status k = completedStatus
    · simp [pollLoop, hc]
    · have hr := ih (k + 1) (by rw [Nat.add_comm k (m + 1)] at h; rw [show k + 1 + m = m + 1 + k by omega]; exact h)
      rw [pollLoop, if_neg hc]
      exact hr

/-- C10: the polling loop of `runAsync` terminates if and only if the
job-status endpoint eventually reports status "completed"; a status
sequence that never reports "completed" (for example one that settles at
"failed" or a dead-lettered status) is not handled by the loop, which
then polls forever. -/
theorem runAsync_poll_terminates_iff (status : Nat → String) :
    (PollTerminates status ↔ ∃ n, status n = completedStatus) ∧
    ((∀ n, status n ≠ completedStatus) → ¬ PollTerminates status) := by
  constructor
  · constructor
    · rintro ⟨fuel, h⟩
      exact pollLoop_isSome_imp status fuel 0 h
    · rintro ⟨n, hn⟩
      exact ⟨n + 1, pollLoop_reaches status n 0 (by simpa using hn)⟩
  · rintro hne ⟨fuel, h⟩
    obtain ⟨n, hn⟩ := pollLoop_isSome_imp status fuel 0 h
    exact hne n hn

/-- Witness for C10: a status sequence that settles at "completed" after
two polls terminates the loop; the constant "failed" sequence never does. -/
theorem runAsync_poll_terminates_iff_witness :
    PollTerminates statusSettlesAtTwo ∧ ¬ PollTerminates statusAlwaysFailed := by
  constructor
  · exact (runAsync_poll_terminates_iff statusSettlesAtTwo).1.2 ⟨2, by decide⟩
  · exact (runAsync_poll_terminates_iff statusAlwaysFailed).2
      (fun n => (by decide : failedStatus ≠ completedStatus))

/-!  Preservation lemmas for the interleaving semantics. -/

/-- The queue never grows past the configured bound. -/
def DepthOK (s : Engine) : Prop := s.queue.length ≤ s.maxQueueSize

theorem enqueueJob_fields (j : Job) (s : Engine) :
    (enqueueJob j s).2.maxQueueSize = s.maxQueueSize ∧
    (enqueueJob j s).2.maxAttempts = s.maxAttempts ∧
    (enqueueJob j s).2.nextId = s.nextId ∧
    (enqueueJob j s).2.running = s.running ∧
    (enqueueJob j s).2.dlq = s.dlq := by
  by_cases h : s.maxQueueSize ≤ s.queue.length
  · rw [enqueueJob_of_full j h]
    exact ⟨rfl, rfl, rfl, rfl, rfl⟩
  · rw [enqueueJob_of_room j (by omega)]
    exact ⟨rfl, rfl, rfl, rfl, rfl⟩

/-!  Characterizations of the worker cycle and the dead-letter retry. -/

theorem workerStep_not_running {s : Engine} (h : s.running = false) : workerStep s = s := by
  simp [workerStep, h]

theorem workerStep_empty {s : Engine} (h : s.queue = []) : workerStep s = s := by
  simp [workerStep, h]

theorem workerStep_success {s : Engine} {j : Job} {rest : List Job}
    (hr : s.running = true) (hq : s.queue = j :: rest) (hf : j.fails = false) :
    workerStep s = { s with queue := rest
                            jobsCompleted := s.jobsCompleted + 1
                            completedOrder := s.completedOrder ++ [j.id] } := by
  simp [workerStep, hr, hq, hf]

theorem workerStep_requeue {s : Engine} {j : Job} {rest : List Job}
    (hr : s.running = true) (hq : s.queue = j :: rest) (hf : j.fails = true)
    (hlt : j.attempts + 1 < s.maxAttempts) :
    workerStep s =
      (enqueueJob { j with attempts := j.attempts + 1 } { s with queue := rest }).2 := by
  simp [workerStep, hr, hq, hf, hlt]

theorem workerStep_deadletter {s : Engine} {j : Job} {rest : List Job}
    (hr : s.running = true) (hq : s.queue = j :: rest) (hf : j.fails = true)
    (hge : ¬ j.attempts + 1 < s.maxAttempts) :
    workerStep s =
      { s with queue := rest
               dlq := s.dlq ++
                 [{ j with attempts := j.attempts + 1, state := JobState.deadLettered }]
               jobsFailed := s.jobsFailed + 1 } := by
  simp [workerStep, hr, hq, hf, hge]

theorem dlqRetry_notFound {s : Engine} {i : Nat}
    (h : s.dlq.find? (fun j => j.id == i) = none) :
    dlqRetry i s = (SubmitResult.rejected notFoundReason, s) := by
  unfold dlqRetry
  rw [h]

theorem dlqRetry_found_room {s : Engine} {i : Nat} {j : Job}
    (hf : s.dlq.find? (fun j => j.id == i) = some j)
    (hc : s.queue.length < s.maxQueueSize) :
    dlqRetry i s = (SubmitResult.accepted j.id (s.queue.length + 1),
      { s with queue := s.queue ++ [{ j with attempts := 0, state := JobState.queued }]
               dlq := s.dlq.filter (fun k => !(k.id == i)) }) := by
  unfold dlqRetry
  rw [hf]
  show retryFinish i (enqueueJob { j with attempts := 0 } s) = _
  rw [enqueueJob_of_room _ hc]
  rfl

theorem dlqRetry_found_full {s : Engine} {i : Nat} {j : Job}
    (hf : s.dlq.find? (fun j => j.id == i) = some j)
    (hc : s.maxQueueSize ≤ s.queue.length) :
    dlqRetry i s = (SubmitResult.rejected queueFullReason,
      { s with queueRejections := s.queueRejections + 1 }) := by
  unfold dlqRetry
  rw [hf]
  show retryFinish i (enqueueJob { j with attempts := 0 } s) = _
  rw [enqueueJob_of_full _ hc]
  rfl

theorem startWorkers_running {s : Engine} (n : Nat) (h : s.running = true) :
    startWorkers n s = (s.workers.length, s) := by
  simp [startWorkers, h]

theorem startWorkers_stopped {s : Engine} (n : Nat) (h : s.running = false) :
    startWorkers n s = (n, { s with
      running := true
      workers := (List.range n).map (fun i => { id := i, jobsProcessed := 0 }) }) := by
  simp [startWorkers, h]

theorem stopWorkers_stopped {s : Engine} (h : s.running = false) : stopWorkers s = s := by
  simp [stopWorkers, h]

theorem stopWorkers_running {s : Engine} (h : s.running = true) :
    stopWorkers s = { s with running := false, workers := [] } := by
  simp [stopWorkers, h]

theorem applyOp_config (op : Op) (s : Engine) :
    (applyOp op s).maxQueueSize = s.maxQueueSize ∧
    (applyOp op s).maxAttempts = s.maxAttempts ∧
    s.nextId ≤ (applyOp op s).nextId := by
  cases op with
  | submit f =>
    have h := enqueueJob_fields
      { id := s.nextId, fails := f, state := JobState.queued, attempts := 0 }
      { s with nextId := s.nextId + 1 }
    exact ⟨h.1, h.2.1, Nat.le_trans (Nat.le_succ _) (Nat.le_of_eq h.2.2.1.symm)⟩
  | workerStep =>
    show (workerStep s).maxQueueSize = s.maxQueueSize ∧
      (workerStep s).maxAttempts = s.maxAttempts ∧ s.nextId ≤ (workerStep s).nextId
    cases hr : s.running with
    | false => rw [workerStep_not_running hr]; exact ⟨rfl, rfl, Nat.le_refl _⟩
    | true =>
      cases hq : s.queue with
      | nil => rw [workerStep_empty hq]; exact ⟨rfl, rfl, Nat.le_refl _⟩
      | cons j rest =>
        cases hf : j.fails with
        | false => rw [workerStep_success hr hq hf]; exact ⟨rfl, rfl, Nat.le_refl _⟩
        | true =>
          by_cases hlt : j.attempts + 1 < s.maxAttempts
          · rw [workerStep_requeue hr hq hf hlt]
            have h := enqueueJob_fields { j with attempts := j.attempts + 1 }
              { s with queue := rest }
            exact ⟨h.1, h.2.1, Nat.le_of_eq h.2.2.1.symm⟩
          · rw [workerStep_deadletter hr hq hf hlt]; exact ⟨rfl, rfl, Nat.le_refl _⟩
  | start n =>
    show (startWorkers n s).2.maxQueueSize = s.maxQueueSize ∧
      (startWorkers n s).2.maxAttempts = s.maxAttempts ∧
      s.nextId ≤ (startWorkers n s).2.nextId
    cases hr : s.running with
    | false => rw [startWorkers_stopped n hr]; exact ⟨rfl, rfl, Nat.le_refl _⟩
    | true => rw [startWorkers_running n hr]; exact ⟨rfl, rfl, Nat.le_refl _⟩
  | stop =>
    show (stopWorkers s).maxQueueSize = s.maxQueueSize ∧
      (stopWorkers s).maxAttempts = s.maxAttempts ∧ s.nextId ≤ (stopWorkers s).nextId
    cases hr : s.running with
    | false => rw [stopWorkers_stopped hr]; exact ⟨rfl, rfl, Nat.le_refl _⟩
    | true => rw [stopWorkers_running hr]; exact ⟨rfl, rfl, Nat.le_refl _⟩
  | dlqRetry i =>
    show (dlqRetry i s).2.maxQueueSize = s.maxQueueSize ∧
      (dlqRetry i s).2.maxAttempts = s.maxAttempts ∧ s.nextId ≤ (dlqRetry i s).2.nextId
    cases hfind : s.dlq.find? (fun j => j.id == i) with
    | none => rw [dlqRetry_notFound hfind]; exact ⟨rfl, rfl, Nat.le_refl _⟩
    | some j =>
      by_cases hc : s.queue.length < s.maxQueueSize
      · rw [dlqRetry_found_room hfind hc]; exact ⟨rfl, rfl, Nat.le_refl _⟩
      · rw [dlqRetry_found_full hfind (by omega)]; exact ⟨rfl, rfl, Nat.le_refl _⟩
  | dlqClear => exact ⟨rfl, rfl, Nat.le_refl _⟩
  | reset => exact ⟨rfl, rfl, Nat.le_refl _⟩

theorem enqueueJob_depth {s : Engine} (j : Job) (h : DepthOK s) :
    DepthOK (enqueueJob j s).2 := by
  unfold DepthOK at *
  unfold enqueueJob
  split
  · simpa using h
  · next h2 =>
    simp only [List.length_append, List.length_cons, List.length_nil]
    omega

theorem applyOp_depth (op : Op) (s : Engine) (h : DepthOK s) : DepthOK (applyOp op s) := by
  cases op with
  | submit f =>
    exact enqueueJob_depth _ (by simpa [DepthOK] using h)
  | workerStep =>
    show DepthOK (workerStep s)
    cases hr : s.running with
    | false => rw [workerStep_not_running hr]; exact h
    | true =>
      cases hq : s.queue with
      | nil => rw [workerStep_empty hq]; exact h
      | cons j rest =>
        have hlen : rest.length + 1 ≤ s.maxQueueSize := by
          have h2 := h
          unfold DepthOK at h2
          rw [hq] at h2
          simpa using h2
        cases hf : j.fails with
        | false =>
          rw [workerStep_success hr hq hf]
          simp [DepthOK]
          omega
        | true =>
          by_cases hlt : j.attempts + 1 < s.maxAttempts
          · rw [workerStep_requeue hr hq hf hlt]
            exact enqueueJob_depth _ (by simp [DepthOK]; omega)
          · rw [workerStep_deadletter hr hq hf hlt]
            simp [DepthOK]
            omega
  | start n =>
    show DepthOK (startWorkers n s).2
    cases hr : s.running with
    | false => rw [startWorkers_stopped n hr]; exact h
    | true => rw [startWorkers_running n hr]; exact h
  | stop =>
    show DepthOK (stopWorkers s)
    cases hr : s.running with
    | false => rw [stopWorkers_stopped hr]; exact h
    | true => rw [stopWorkers_running hr]; exact h
  | dlqRetry i =>
    show DepthOK (dlqRetry i s).2
    cases hfind : s.dlq.find? (fun j => j.id == i) with
    | none => rw [dlqRetry_notFound hfind]; exact h
    | some j =>
      by_cases hc : s.queue.length < s.maxQueueSize
      · rw [dlqRetry_found_room hfind hc]
        simp [DepthOK]
        omega
      · rw [dlqRetry_found_full hfind (by omega)]
        exact h
  | dlqClear =>
    simpa [applyOp, dlqClear, DepthOK] using h
  | reset =>
    simp [applyOp, resetE, DepthOK]

theorem run_config (ops : List Op) (s : Engine) :
    (run ops s).maxQueueSize = s.maxQueueSize ∧
    (run ops s).maxAttempts = s.maxAttempts ∧
    s.nextId ≤ (run ops s).nextId := by
  induction ops generalizing s with
  | nil => exact ⟨rfl, rfl, Nat.le_refl _⟩
  | cons op t ih =>
    have h1 := applyOp_config op s
    have h2 := ih (applyOp op s)
    exact ⟨h2.1.trans h1.1, h2.2.1.trans h1.2.1, h1.2.2.trans h2.2.2⟩

theorem run_depth (ops : List Op) (s : Engine) (h : DepthOK s) : DepthOK (run ops s) := by
  induction ops generalizing s with
  | nil => exact h
  | cons op t ih => exact ih (applyOp op s) (applyOp_depth op s h)

/-- C1: for every sequence of submissions (any interleaving of engine
operations, since each queue operation is atomic), the queue depth never
exceeds the configured `maxQueueSize`; and a submission arriving when
the queue is at capacity is rejected with reason "queue full" and never
enqueued: the queue is left exactly as it was. -/
theorem queue_capacity_invariant (qmax amax : Nat) (ops : List Op) :
    (run ops (init qmax amax)).queue.length ≤ qmax ∧
    (∀ (s : Engine) (f : Bool), s.maxQueueSize ≤ s.queue.length →
      (submit f s).1 = SubmitResult.rejected queueFullReason ∧
      (submit f s).2.queue = s.queue) := by
  constructor
  · have hd := run_depth ops (init qmax amax) (by simp [DepthOK, init])
    have hc := (run_config ops (init qmax amax)).1
    unfold DepthOK at hd
    rw [hc] at hd
    exact hd
  · intro s f h
    show ((enqueueJob _ _).1 = _) ∧ ((enqueueJob _ _).2.queue = _)
    rw [enqueueJob_of_full _ (by simpa using h)]
    exact ⟨rfl, rfl⟩

/-- Witness for C1: the depth bound after a concrete interleaving, and
rejection without enqueueing at the concrete full capacity-2 engine. -/
theorem queue_capacity_invariant_witness :
    (run [Op.submit true, Op.start 2, Op.workerStep] (init 10 3)).queue.length ≤ 10 ∧
    (submit false fullEngine).2.queue = fullEngine.queue := by
  constructor
  · exact (queue_capacity_invariant 10 3 [Op.submit true, Op.start 2, Op.workerStep]).1
  · exact ((queue_capacity_invariant 10 3 []).2 fullEngine false (by decide)).2

/-- A concrete engine with one dead-lettered job: capacity 1, one retry
allowed; one worker dead-letters the always-failing job in one step. -/
def dlqEngine : Engine :=
  workerStep (submit true (startWorkers 1 (init 1 1)).2).2

/-- The dead-lettered job held by `dlqEngine`. -/
def jobD : Job := { id := 0, fails := true, state := JobState.deadLettered, attempts := 1 }

/-- `dlqEngine` with its capacity-1 queue refilled, so the queue is full
while the dead-letter store still holds `jobD`. -/
def dlqFullEngine : Engine := (submit false dlqEngine).2

/-- C5: `dlq.retry(id)` on a present id resets the job's attempts to 0
and its state to Queued and resubmits it through the bounded queue, so a
full queue rejects the retry under the same capacity rule; on an absent
id it reports "not found" and leaves the state untouched (a total
function: never a crash). -/
theorem dlq_retry_behaviour (s : Engine) (i : Nat) :
    (s.dlq.find? (fun j => j.id == i) = none →
      dlqRetry i s = (SubmitResult.rejected notFoundReason, s)) ∧
    (∀ j, s.dlq.find? (fun j => j.id == i) = some j →
      (s.queue.length < s.maxQueueSize →
        (dlqRetry i s).1 = SubmitResult.accepted j.id (s.queue.length + 1) ∧
        (dlqRetry i s).2.queue =
          s.queue ++ [{ j with attempts := 0, state := JobState.queued }] ∧
        (dlqRetry i s).2.dlq = s.dlq.filter (fun k => !(k.id == i))) ∧
      (s.maxQueueSize ≤ s.queue.length →
        (dlqRetry i s).1 = SubmitResult.rejected queueFullReason ∧
        (dlqRetry i s).2 = { s with queueRejections := s.queueRejections + 1 })) := by
  refine ⟨fun h => dlqRetry_notFound h, fun j hj => ⟨fun hc => ?_, fun hc => ?_⟩⟩
  · rw [dlqRetry_found_room hj hc]
    exact ⟨rfl, rfl, rfl⟩
  · rw [dlqRetry_found_full hj hc]
    exact ⟨rfl, rfl⟩

/-- Witness for C5: retrying the absent id 5 is a reported no-op;
retrying the present id 0 requeues it at position 1 and empties the
dead-letter store; the same retry against a full queue is rejected. -/
theorem dlq_retry_behaviour_witness :
    dlqRetry 5 dlqEngine = (SubmitResult.rejected notFoundReason, dlqEngine) ∧
    (dlqRetry 0 dlqEngine).1 = SubmitResult.accepted 0 1 ∧
    (dlqRetry 0 dlqEngine).2.dlq = [] ∧
    (dlqRetry 0 dlqFullEngine).1 = SubmitResult.rejected queueFullReason := by
  refine ⟨?_, ?_, ?_, ?_⟩
  · exact (dlq_retry_behaviour dlqEngine 5).1 (by decide)
  · exact (((dlq_retry_behaviour dlqEngine 0).2 jobD (by decide)).1 (by decide)).1
  · have h := (((dlq_retry_behaviour dlqEngine 0).2 jobD (by decide)).1 (by decide)).2.2
    rw [h]
    decide
  · exact (((dlq_retry_behaviour dlqFullEngine 0).2 jobD (by decide)).2 (by decide)).1

/-- Draining a queue of non-failing jobs with repeated worker steps
records the completions in queue (submission) order. -/
theorem workerStep_drain : ∀ (q : List Job) (s : Engine), s.running = true →
    s.queue = q → (∀ j ∈ q, j.fails = false) →
    (workerStep^[q.length] s).completedOrder = s.completedOrder ++ q.map Job.id := by
  intro q
  induction q with
  | nil =>
    intro s hr hq hall
    simp
  | cons j rest ih =>
    intro s hr hq hall
    rw [List.length_cons, Function.iterate_succ_apply,
      workerStep_success hr hq (hall j (by simp))]
    rw [ih { s with queue := rest
                    jobsCompleted := s.jobsCompleted + 1
                    completedOrder := s.completedOrder ++ [j.id] }
      hr rfl (fun k hk => hall k (by simp [hk]))]
    simp

/-- A running engine holding three non-failing jobs, submitted in order. -/
def fifoEngine : Engine :=
  run [Op.start 1, Op.submit false, Op.submit false, Op.submit false] (init 10 3)

/-- The head job of `fifoEngine`. -/
def jobF0 : Job := { id := 0, fails := false, state := JobState.queued, attempts := 0 }

/-- The second job of `fifoEngine`. -/
def jobF1 : Job := { id := 1, fails := false, state := JobState.queued, attempts := 0 }

/-- The third job of `fifoEngine`. -/
def jobF2 : Job := { id := 2, fails := false, state := JobState.queued, attempts := 0 }

/-- C7: the queue is strict FIFO: a worker step processes exactly the
head (longest-waiting) job, completing it first; a job that fails
retriably re-enters at the back of the queue behind the already-queued
jobs; and with one worker and no failing jobs, repeated worker steps
complete all jobs in submission order. -/
theorem fifo_strict (s : Engine) (hrun : s.running = true)
    (hdepth : s.queue.length ≤ s.maxQueueSize) :
    (∀ j rest, s.queue = j :: rest → j.fails = false →
      (workerStep s).queue = rest ∧
      (workerStep s).completedOrder = s.completedOrder ++ [j.id]) ∧
    (∀ j rest, s.queue = j :: rest → j.fails = true → j.attempts + 1 < s.maxAttempts →
      (workerStep s).queue =
        rest ++ [{ j with attempts := j.attempts + 1, state := JobState.queued }]) ∧
    ((∀ j ∈ s.queue, j.fails = false) →
      (workerStep^[s.queue.length] s).completedOrder =
        s.completedOrder ++ s.queue.map Job.id) := by
  refine ⟨fun j rest hq hf => ?_, fun j rest hq hf hlt => ?_, fun hall => ?_⟩
  · rw [workerStep_success hrun hq hf]
    exact ⟨rfl, rfl⟩
  · rw [workerStep_requeue hrun hq hf hlt]
    have hroom : rest.length < s.maxQueueSize := by
      rw [hq] at hdepth
      simp only [List.length_cons] at hdepth
      omega
    rw [enqueueJob_of_room _ (by simpa using hroom)]
  · exact workerStep_drain s.queue s hrun rfl hall

/-- Witness for C7: draining the three-job engine completes ids in
submission order, and one step completes exactly the head job. -/
theorem fifo_strict_witness :
    (workerStep^[fifoEngine.queue.length] fifoEngine).completedOrder =
      fifoEngine.completedOrder ++ fifoEngine.queue.map Job.id ∧
    (workerStep fifoEngine).completedOrder = fifoEngine.completedOrder ++ [jobF0.id] ∧
    (workerStep fifoEngine).queue = [jobF1, jobF2] := by
  refine ⟨?_, ?_, ?_⟩
  · exact (fifo_strict fifoEngine (by decide) (by decide)).2.2 (by decide)
  · exact ((fifo_strict fifoEngine (by decide) (by decide)).1 jobF0 [jobF1, jobF2]
      (by decide) (by decide)).2
  · exact ((fifo_strict fifoEngine (by decide) (by decide)).1 jobF0 [jobF1, jobF2]
      (by decide) (by decide)).1

/-!  The well-formedness invariant of reachable engine states. -/

/-- Invariant of reachable states: bounded depth; queued jobs have
attempt counts within the retry budget (zero, or strictly convertible to
one more attempt); every stored id is below the id source; queue and
dead-letter ids are disjoint; queue ids are distinct; dead-lettered jobs
have exhausted exactly the budget. -/
structure WF (s : Engine) : Prop where
  depth : s.queue.length ≤ s.maxQueueSize
  qAttempts : ∀ j ∈ s.queue, j.attempts = 0 ∨ j.attempts + 1 ≤ s.maxAttempts
  qFresh : ∀ j ∈ s.queue, j.id < s.nextId
  dFresh : ∀ j ∈ s.dlq, j.id < s.nextId
  disj : ∀ j ∈ s.queue, ∀ k ∈ s.dlq, j.id ≠ k.id
  qNodup : (s.queue.map Job.id).Nodup
  dAttempts : ∀ j ∈ s.dlq, 1 ≤ s.maxAttempts → j.attempts = s.maxAttempts

theorem WF_init (qmax amax : Nat) : WF (init qmax amax) := by
  constructor <;> simp [init]

theorem WF_submit (f : Bool) {s : Engine} (hw : WF s) : WF (submit f s).2 := by
  show WF (enqueueJob { id := s.nextId, fails := f, state := JobState.queued, attempts := 0 }
    { s with nextId := s.nextId + 1 }).2
  by_cases hc : s.maxQueueSize ≤ s.queue.length
  · rw [enqueueJob_of_full _ (by exact hc)]
    exact ⟨hw.depth, hw.qAttempts, fun j hj => Nat.lt_succ_of_lt (hw.qFresh j hj),
      fun j hj => Nat.lt_succ_of_lt (hw.dFresh j hj), hw.disj, hw.qNodup, hw.dAttempts⟩
  · rw [enqueueJob_of_room _ (by exact Nat.lt_of_not_le hc)]
    refine ⟨?_, ?_, ?_, ?_, ?_, ?_, ?_⟩
    · simp only [List.length_append, List.length_cons, List.length_nil]
      omega
    · intro j hj
      rcases List.mem_append.1 hj with h | h
      · exact hw.qAttempts j h
      · left
        rw [List.mem_singleton.1 h]
    · intro j hj
      rcases List.mem_append.1 hj with h | h
      · exact Nat.lt_succ_of_lt (hw.qFresh j h)
      · rw [List.mem_singleton.1 h]
        exact Nat.lt_succ_self _
    · exact fun j hj => Nat.lt_succ_of_lt (hw.dFresh j hj)
    · intro j hj k hk
      rcases List.mem_append.1 hj with h | h
      · exact hw.disj j h k hk
      · rw [List.mem_singleton.1 h]
        show s.nextId ≠ k.id
        have := hw.dFresh k hk
        omega
    · rw [List.map_append]
      rw [List.nodup_append]
      refine ⟨hw.qNodup, by simp, ?_⟩
      intro a ha hb
      simp only [List.map_cons, List.map_nil, List.mem_singleton] at hb
      obtain ⟨q, hq2, hq3⟩ := List.mem_map.1 ha
      have := hw.qFresh q hq2
      omega
    · exact hw.dAttempts

theorem WF_workerStep {s : Engine} (hw : WF s) : WF (workerStep s) := by
  cases hr : s.running with
  | false => rw [workerStep_not_running hr]; exact hw
  | true =>
    cases hq : s.queue with
    | nil => rw [workerStep_empty hq]; exact hw
    | cons j rest =>
      have hj : j ∈ s.queue := by rw [hq]; exact List.mem_cons_self _ _
      have hrest : ∀ k, k ∈ rest → k ∈ s.queue := by
        intro k hk
        rw [hq]
        exact List.mem_cons_of_mem _ hk
      have hlen : rest.length + 1 ≤ s.maxQueueSize := by
        have h2 := hw.depth
        rw [hq] at h2
        simpa using h2
      have hnd : j.id ∉ rest.map Job.id ∧ (rest.map Job.id).Nodup := by
        have h2 := hw.qNodup
        rw [hq] at h2
        simpa [List.nodup_cons] using h2
      cases hf : j.fails with
      | false =>
        rw [workerStep_success hr hq hf]
        exact ⟨by simpa using Nat.le_of_succ_le hlen,
          fun k hk => hw.qAttempts k (hrest k hk),
          fun k hk => hw.qFresh k (hrest k hk),
          hw.dFresh,
          fun q hq2 k hk => hw.disj q (hrest q hq2) k hk,
          hnd.2,
          hw.dAttempts⟩
      | true =>
        by_cases hlt : j.attempts + 1 < s.maxAttempts
        · rw [workerStep_requeue hr hq hf hlt,
            enqueueJob_of_room _ (by simpa using Nat.lt_of_succ_le hlen)]
          refine ⟨?_, ?_, ?_, hw.dFresh, ?_, ?_, hw.dAttempts⟩
          · simp only [List.length_append, List.length_cons, List.length_nil]
            simpa using hlen
          · intro k hk
            rcases List.mem_append.1 hk with h | h
            · exact hw.qAttempts k (hrest k h)
            · right
              rw [List.mem_singleton.1 h]
              show j.attempts + 1 + 1 ≤ s.maxAttempts
              omega
          · intro k hk
            rcases List.mem_append.1 hk with h | h
            · exact hw.qFresh k (hrest k h)
            · rw [List.mem_singleton.1 h]
              exact hw.qFresh j hj
          · intro q hq2 k hk
            rcases List.mem_append.1 hq2 with h | h
            · exact hw.disj q (hrest q h) k hk
            · rw [List.mem_singleton.1 h]
              exact hw.disj j hj k hk
          · rw [List.map_append, List.nodup_append]
            refine ⟨hnd.2, by simp, ?_⟩
            intro a ha hb
            simp only [List.map_cons, List.map_nil, List.mem_singleton] at hb
            rw [hb] at ha
            exact hnd.1 ha
        · rw [workerStep_deadletter hr hq hf hlt]
          refine ⟨by simpa using Nat.le_of_succ_le hlen,
            fun k hk => hw.qAttempts k (hrest k hk),
            fun k hk => hw.qFresh k (hrest k hk), ?_, ?_, hnd.2, ?_⟩
          · intro k hk
            rcases List.mem_append.1 hk with h | h
            · exact hw.dFresh k h
            · rw [List.mem_singleton.1 h]
              exact hw.qFresh j hj
          · intro q hq2 k hk
            rcases List.mem_append.1 hk with h | h
            · exact hw.disj q (hrest q hq2) k h
            · rw [List.mem_singleton.1 h]
              intro hqj
              exact hnd.1 (hqj ▸ List.mem_map.2 ⟨q, hq2, rfl⟩)
          · intro k hk hone
            have hone2 : 1 ≤ s.maxAttempts := hone
            rcases List.mem_append.1 hk with h | h
            · exact hw.dAttempts k h hone2
            · rw [List.mem_singleton.1 h]
              show j.attempts + 1 = s.maxAttempts
              rcases hw.qAttempts j hj with h0 | h1 <;> omega

theorem WF_startWorkers (n : Nat) {s : Engine} (hw : WF s) : WF (startWorkers n s).2 := by
  cases hr : s.running with
  | false =>
    rw [startWorkers_stopped n hr]
    exact ⟨hw.depth, hw.qAttempts, hw.qFresh, hw.dFresh, hw.disj, hw.qNodup, hw.dAttempts⟩
  | true =>
    rw [startWorkers_running n hr]
    exact hw

theorem WF_stopWorkers {s : Engine} (hw : WF s) : WF (stopWorkers s) := by
  cases hr : s.running with
  | false => rw [stopWorkers_stopped hr]; exact hw
  | true =>
    rw [stopWorkers_running hr]
    exact ⟨hw.depth, hw.qAttempts, hw.qFresh, hw.dFresh, hw.disj, hw.qNodup, hw.dAttempts⟩

theorem WF_dlqRetry (i : Nat) {s : Engine} (hw : WF s) : WF (dlqRetry i s).2 := by
  cases hfind : s.dlq.find? (fun j => j.id == i) with
  | none => rw [dlqRetry_notFound hfind]; exact hw
  | some j =>
    have hjd : j ∈ s.dlq := List.mem_of_find?_eq_some hfind
    have hji : j.id = i := by
      have := List.find?_some hfind
      simpa using this
    by_cases hc : s.queue.length < s.maxQueueSize
    · rw [dlqRetry_found_room hfind hc]
      refine ⟨?_, ?_, ?_, ?_, ?_, ?_, ?_⟩
      · simp only [List.length_append, List.length_cons, List.length_nil]
        omega
      · intro k hk
        rcases List.mem_append.1 hk with h | h
        · exact hw.qAttempts k h
        · left
          rw [List.mem_singleton.1 h]
      · intro k hk
        rcases List.mem_append.1 hk with h | h
        · exact hw.qFresh k h
        · rw [List.mem_singleton.1 h]
          exact hw.dFresh j hjd
      · intro k hk
        exact hw.dFresh k (List.mem_filter.1 hk).1
      · intro q hq2 k hk
        have hkd := (List.mem_filter.1 hk).1
        have hkne : k.id ≠ i := by
          have := (List.mem_filter.1 hk).2
          simpa using this
        rcases List.mem_append.1 hq2 with h | h
        · exact hw.disj q h k hkd
        · rw [List.mem_singleton.1 h]
          show j.id ≠ k.id
          rw [hji]
          exact fun he => hkne he.symm
      · rw [List.map_append, List.nodup_append]
        refine ⟨hw.qNodup, by simp, ?_⟩
        intro a ha hb
        simp only [List.map_cons, List.map_nil, List.mem_singleton] at hb
        obtain ⟨q, hq2, hq3⟩ := List.mem_map.1 ha
        exact hw.disj q hq2 j hjd (by rw [hq3, hb])
      · intro k hk hone
        exact hw.dAttempts k (List.mem_filter.1 hk).1 hone
    · rw [dlqRetry_found_full hfind (by omega)]
      exact ⟨hw.depth, hw.qAttempts, hw.qFresh, hw.dFresh, hw.disj, hw.qNodup, hw.dAttempts⟩

theorem WF_applyOp (op : Op) {s : Engine} (hw : WF s) : WF (applyOp op s) := by
  cases op with
  | submit f => exact WF_submit f hw
  | workerStep => exact WF_workerStep hw
  | start n => exact WF_startWorkers n hw
  | stop => exact WF_stopWorkers hw
  | dlqRetry i => exact WF_dlqRetry i hw
  | dlqClear =>
    refine ⟨hw.depth, hw.qAttempts, hw.qFresh, ?_, ?_, hw.qNodup, ?_⟩ <;>
      simp [applyOp, dlqClear]
  | reset =>
    refine ⟨?_, ?_, ?_, ?_, ?_, ?_, ?_⟩ <;> simp [applyOp, resetE]

theorem WF_run (ops : List Op) (s : Engine) (hw : WF s) : WF (run ops s) := by
  induction ops generalizing s with
  | nil => exact hw
  | cons op t ih => exact ih (applyOp op s) (WF_applyOp op hw)

/-- An id below the id source that is outside the live queue stays
outside it under any single operation that is not a dead-letter retry. -/
theorem queueIds_applyOp {op : Op} {s : Engine} {i : Nat} (hi : i < s.nextId)
    (hq : i ∉ queueIds s) (hnr : isRetry op = false) : i ∉ queueIds (applyOp op s) := by
  cases op with
  | submit f =>
    show i ∉ queueIds (enqueueJob
      { id := s.nextId, fails := f, state := JobState.queued, attempts := 0 }
      { s with nextId := s.nextId + 1 }).2
    by_cases hc : s.maxQueueSize ≤ s.queue.length
    · rw [enqueueJob_of_full _ (by exact hc)]
      exact hq
    · rw [enqueueJob_of_room _ (by exact Nat.lt_of_not_le hc)]
      intro hmem
      simp only [queueIds, List.map_append, List.mem_append, List.map_cons, List.map_nil,
        List.mem_singleton] at hmem
      rcases hmem with h | h
      · exact hq h
      · omega
  | workerStep =>
    show i ∉ queueIds (workerStep s)
    cases hr : s.running with
    | false => rw [workerStep_not_running hr]; exact hq
    | true =>
      cases hqv : s.queue with
      | nil => rw [workerStep_empty hqv]; exact hq
      | cons j rest =>
        have hqm : i ∉ rest.map Job.id ∧ i ≠ j.id := by
          have h2 := hq
          simp only [queueIds, hqv, List.map_cons, List.mem_cons] at h2
          push_neg at h2
          exact ⟨h2.2, h2.1⟩
        cases hf : j.fails with
        | false =>
          rw [workerStep_success hr hqv hf]
          exact fun hmem => hqm.1 hmem
        | true =>
          by_cases hlt : j.attempts + 1 < s.maxAttempts
          · rw [workerStep_requeue hr hqv hf hlt]
            by_cases hc2 : s.maxQueueSize ≤ rest.length
            · rw [enqueueJob_of_full _ (by exact hc2)]
              exact fun hmem => hqm.1 hmem
            · rw [enqueueJob_of_room _ (by exact Nat.lt_of_not_le hc2)]
              intro hmem
              simp only [queueIds, List.map_append, List.mem_append, List.map_cons,
                List.map_nil, List.mem_singleton] at hmem
              rcases hmem with h | h
              · exact hqm.1 h
              · exact hqm.2 (by simpa using h)
          · rw [workerStep_deadletter hr hqv hf hlt]
            exact fun hmem => hqm.1 hmem
  | start n =>
    show i ∉ queueIds (startWorkers n s).2
    cases hr : s.running with
    | false => rw [startWorkers_stopped n hr]; exact hq
    | true => rw [startWorkers_running n hr]; exact hq
  | stop =>
    show i ∉ queueIds (stopWorkers s)
    cases hr : s.running with
    | false => rw [stopWorkers_stopped hr]; exact hq
    | true => rw [stopWorkers_running hr]; exact hq
  | dlqRetry k => simp [isRetry] at hnr
  | dlqClear => exact hq
  | reset => simp [queueIds, applyOp, resetE]

/-- The multi-step version of `queueIds_applyOp`: over any retry-free
operation sequence, an id below the id source that is outside the live
queue never enters it. -/
theorem queueIds_run : ∀ (ops : List Op) (s : Engine) (i : Nat), NoRetry ops →
    i < s.nextId → i ∉ queueIds s → i ∉ queueIds (run ops s) := by
  intro ops
  induction ops with
  | nil => exact fun s i _ _ hq => hq
  | cons op t ih =>
    intro s i hnr hi hq
    have h1 := queueIds_applyOp hi hq (hnr op (List.mem_cons_self op t))
    have h2 : i < (applyOp op s).nextId := Nat.lt_of_lt_of_le hi (applyOp_config op s).2.2
    exact ih (applyOp op s) i (fun o ho => hnr o (List.mem_cons_of_mem op ho)) h2 h1

/-!  The always-failing single-job scenario. -/

/-- Modelled from the spec: the poison-job demo start state behind
`DLQDemo.submitFailingJob`: workers started, one always-failing job
submitted to the fresh engine. -/
def dlqScenario (qmax amax : Nat) : Engine :=
  (submit true (startWorkers 1 (init qmax amax)).2).2

/-- The always-failing job of `dlqScenario` after `k` failed attempts. -/
def failJob (k : Nat) : Job :=
  { id := 0, fails := true, state := JobState.queued, attempts := k }

/-- The engine state of the scenario after `k` failed attempts of its
single poison job. -/
def scenState (qmax amax k : Nat) : Engine :=
  { queue := [failJob k]
    dlq := []
    workers := [{ id := 0, jobsProcessed := 0 }]
    running := true
    jobsCompleted := 0
    jobsFailed := 0
    queueRejections := 0
    completedOrder := []
    maxQueueSize := qmax
    maxAttempts := amax
    nextId := 1 }

theorem dlqScenario_eq {qmax : Nat} (amax : Nat) (hqm : 1 ≤ qmax) :
    dlqScenario qmax amax = scenState qmax amax 0 := by
  unfold dlqScenario
  rw [startWorkers_stopped 1 rfl]
  show (enqueueJob _ _).2 = _
  rw [enqueueJob_of_room _ (by exact hqm)]
  rfl

theorem scenState_step {qmax amax : Nat} (hqm : 1 ≤ qmax) {k : Nat} (hlt : k + 1 < amax) :
    workerStep (scenState qmax amax k) = scenState qmax amax (k + 1) := by
  rw [workerStep_requeue rfl rfl rfl (by exact hlt)]
  rw [enqueueJob_of_room _ (by exact hqm)]
  rfl

theorem scenState_iter {qmax amax : Nat} (hqm : 1 ≤ qmax) :
    ∀ k, k < amax → workerStep^[k] (scenState qmax amax 0) = scenState qmax amax k := by
  intro k
  induction k with
  | zero => exact fun _ => rfl
  | succ m ih =>
    intro hk
    rw [Function.iterate_succ_apply', ih (by omega), scenState_step hqm hk]

/-- C2: a job that fails on every execution is attempted exactly
`maxAttempts` times: after `k < maxAttempts` worker steps it is still
queued with `attempts = k` (so it is picked up again), and after the
`maxAttempts`-th step it sits in the dead-letter store with
`attempts = maxAttempts` and `jobsFailed = 1`.  Moreover, in every
reachable state a queued job's attempt count stays below `maxAttempts`
(so the count while Processing never exceeds it), and a dead-lettered id
never re-enters the live queue under any retry-free operation sequence. -/
theorem retry_bound_deadletter (qmax amax : Nat) (hqm : 1 ≤ qmax) (ha : 1 ≤ amax) :
    (∀ k, k < amax →
      (workerStep^[k] (dlqScenario qmax amax)).queue = [failJob k] ∧
      (workerStep^[k] (dlqScenario qmax amax)).dlq = []) ∧
    ((workerStep^[amax] (dlqScenario qmax amax)).queue = [] ∧
      (workerStep^[amax] (dlqScenario qmax amax)).dlq =
        [{ id := 0, fails := true, state := JobState.deadLettered, attempts := amax }] ∧
      (workerStep^[amax] (dlqScenario qmax amax)).jobsFailed = 1) ∧
    (∀ ops, ∀ j ∈ (run ops (init qmax amax)).queue, j.attempts < amax) ∧
    (∀ ops more, NoRetry more → ∀ i, i ∈ dlqIds (run ops (init qmax amax)) →
      i ∉ queueIds (run more (run ops (init qmax amax)))) := by
  refine ⟨?_, ?_, ?_, ?_⟩
  · intro k hk
    rw [dlqScenario_eq amax hqm, scenState_iter hqm k hk]
    exact ⟨rfl, rfl⟩
  · obtain ⟨b, rfl⟩ : ∃ b, amax = b + 1 := ⟨amax - 1, by omega⟩
    rw [dlqScenario_eq (b + 1) hqm, Function.iterate_succ_apply',
      scenState_iter hqm b (Nat.lt_succ_self b),
      workerStep_deadletter rfl rfl rfl (show ¬ b + 1 < b + 1 by omega)]
    exact ⟨rfl, rfl, rfl⟩
  · intro ops j hj
    have hw := WF_run ops _ (WF_init qmax amax)
    have hone := hw.qAttempts j hj
    have hmax : (run ops (init qmax amax)).maxAttempts = amax :=
      (run_config ops (init qmax amax)).2.1
    rw [hmax] at hone
    rcases hone with h0 | h1 <;> omega
  · intro ops more hnr i hid
    have hw := WF_run ops _ (WF_init qmax amax)
    obtain ⟨k, hk, hki⟩ := List.mem_map.1 hid
    have hi : i < (run ops (init qmax amax)).nextId := hki ▸ hw.dFresh k hk
    have hnq : i ∉ queueIds (run ops (init qmax amax)) := by
      intro hmem
      obtain ⟨q, hq2, hq3⟩ := List.mem_map.1 hmem
      exact hw.disj q hq2 k hk (by rw [hq3, hki])
    exact queueIds_run more _ i hnr hi hnq

/-- Witness for C2: at `maxQueueSize = 10`, `maxAttempts = 3`, the
poison job is dead-lettered with 3 attempts after 3 steps and is still
queued with 2 attempts after 2 steps; and its dead-lettered id 0 is not
in the live queue after a further retry-free submit and worker step. -/
theorem retry_bound_deadletter_witness :
    (workerStep^[3] (dlqScenario 10 3)).dlq =
      [{ id := 0, fails := true, state := JobState.deadLettered, attempts := 3 }] ∧
    (workerStep^[2] (dlqScenario 10 3)).queue = [failJob 2] ∧
    (0 : Nat) ∉ queueIds (run [Op.submit true, Op.workerStep]
      (run [Op.start 1, Op.submit true, Op.workerStep, Op.workerStep, Op.workerStep]
        (init 10 3))) := by
  refine ⟨?_, ?_, ?_⟩
  · exact ((retry_bound_deadletter 10 3 (by decide) (by decide)).2.1).2.1
  · exact ((retry_bound_deadletter 10 3 (by decide) (by decide)).1 2 (by decide)).1
  · exact (retry_bound_deadletter 10 3 (by decide) (by decide)).2.2.2
      [Op.start 1, Op.submit true, Op.workerStep, Op.workerStep, Op.workerStep]
      [Op.submit true, Op.workerStep] (by unfold NoRetry; decide) 0 (by decide)

end Systems
